import Mathlib

/-!
Verification of the round-based deliberation engine of `echoes-of-error`.

This file gives a shallow embedding of the pure content of
`src/resume_utils.py`, `src/utils.py` and `src/llm_client.py`, and proves
the specified properties of those functions.  Python dictionaries keyed by
round/agent are modelled as functions to `Option`, JSONL log lines as a
three-way sum (blank / invalid JSON / parsed event), and `float` entropy
values as rationals or reals depending on the claim.
-/

namespace EoE

/-- A parsed JSONL log event, following the log line schema: an
`agent_response` event carries its round number, agent id, stance and
rationale; `round_end` carries its round number; every other event type
(`experiment_start`, `config`, `round_start`, `experiment_end`, ...) is
ignored by the resume logic and collapsed into `otherEvent`. -/
inductive Event where
  | agentResponse (round : Nat) (agentId : String) (stance rationale : Option String)
  | roundEnd (round : Nat)
  | otherEvent
deriving DecidableEq

/-- One physical line of a JSONL log, as seen by `find_last_complete_round`:
after stripping it is either empty, fails `json.loads`, or parses to an
event. -/
inductive LogLine where
  | blank
  | invalid
  | event (e : Event)
deriving DecidableEq

/-- The mutable replay state of `find_last_complete_round`:
`last_complete_round` (−1 encoded as `none`) and the nested dict
`round_responses : round -> agent_id -> (stance, rationale)`. -/
structure ResumeState where
  lastComplete : Option Nat
  responses : Nat → String → Option (Option String × Option String)

def initState : ResumeState := ⟨none, fun _ _ => none⟩

/-- One iteration of the replay loop in `find_last_complete_round`
(resume_utils.py lines 40-69): an `agent_response` overwrites the entry for
its (round, agent) key; a `round_end` raises `last_complete_round` if its
round is larger; everything else is skipped. -/
def stepLine (st : ResumeState) (l : LogLine) : ResumeState :=
  match l with
  | .event (.agentResponse r a s ra) =>
      { st with responses := fun r2 a2 =>
          if r2 = r ∧ a2 = a then some (s, ra) else st.responses r2 a2 }
  | .event (.roundEnd r) =>
      match st.lastComplete with
      | none => { st with lastComplete := some r }
      | some c => if c < r then { st with lastComplete := some r } else st
  | _ => st

/-- Model of `find_last_complete_round` (resume_utils.py lines 10-81): replay every
line, then return the last complete round together with the recorded
per-agent states for that round (`round_responses.get(last, {})`), or
`none` with an empty map when no `round_end` was seen. -/
def find_last_complete_round (log : List LogLine) :
    Option Nat × (String → Option (Option String × Option String)) :=
  match (log.foldl stepLine initState).lastComplete with
  | none => (none, fun _ => none)
  | some r => (some r, (log.foldl stepLine initState).responses r)

/-- The round numbers of all `round_end` events of a log, in log order. -/
def roundEnds (log : List LogLine) : List Nat :=
  log.filterMap fun l => match l with
    | .event (.roundEnd r) => some r
    | _ => none

/-- Accumulate the payload of the most recent `agent_response` event for a
fixed (round, agent) key. -/
def respStep (r : Nat) (a : String)
    (acc : Option (Option String × Option String)) (l : LogLine) :
    Option (Option String × Option String) :=
  match l with
  | .event (.agentResponse r2 a2 s ra) =>
      if r2 = r ∧ a2 = a then some (s, ra) else acc
  | _ => acc

/-- The (stance, rationale) of the last `agent_response` event for
(round `r`, agent `a`) in log order, if any: last-write-wins
deduplication. -/
def lastResponseFor (log : List LogLine) (r : Nat) (a : String) :
    Option (Option String × Option String) :=
  log.foldl (respStep r a) none

/-- Keep only the lines that parse as JSON events. -/
def isParsedLine (l : LogLine) : Bool :=
  match l with
  | .event _ => true
  | _ => false

/-- Maximum step on `Option Nat`, mirroring the
`if r_num > last_complete_round` update (with `none` standing for the
initial −1). -/
def maxStep (o : Option Nat) (r : Nat) : Option Nat :=
  match o with
  | none => some r
  | some c => if c < r then some r else some c

/-- Decide whether a line is the `round_end` event of round `t`, mirroring
`data.get("type") == "round_end" and data.get("round") == target_round`. -/
def isTargetEnd (t : Nat) (l : LogLine) : Bool :=
  decide (l = .event (.roundEnd t))

/-- The line-scanning loop of `truncate_log_to_round` (resume_utils.py lines
99-114): accumulate every line; stop (successfully) right after the first
`round_end` of the target round. `none` means the target was not found. -/
def truncAux (t : Nat) : List LogLine → Option (List LogLine)
  | [] => none
  | l :: ls =>
    if isTargetEnd t l then some [l]
    else (truncAux t ls).map (l :: ·)

/-- Model of `truncate_log_to_round` (resume_utils.py lines 84-129), stated on the
file contents: on success the file is rewritten to the kept prefix, on
failure (`False`) the file is left unchanged. -/
def truncate_log_to_round (log : List LogLine) (t : Nat) : Bool × List LogLine :=
  match truncAux t log with
  | some pre => (true, pre)
  | none => (false, log)

/-- A window of the entropy history is below threshold: Python
`all(h <= threshold_absolute for h in entropy_history[i : i + k])`, with
the slice modelled by `drop`/`take` (which clips exactly like Python
slicing). Entropy floats are modelled as rationals. -/
def windowAll (history : List ℚ) (threshold : ℚ) (i window : Nat) : Bool :=
  ((history.drop i).take window).all fun h => decide (h ≤ threshold)

/-- Model of `calculate_time_to_collapse` (utils.py lines 143-168): `None` on an
empty history, else the first index `i` in
`range(len(history) - consecutive_rounds + 1)` whose window is entirely at
or below the threshold (the Python `int` arithmetic of the bound matches
truncated subtraction on `Nat` because the range is empty whenever
`len - window + 1 <= 0`). -/
def calculate_time_to_collapse (history : List ℚ) (threshold : ℚ)
    (window : Nat) : Option Nat :=
  if history.isEmpty then none
  else (List.range (history.length + 1 - window)).find? fun i =>
    windowAll history threshold i window

/-- Specification predicate: round index `i` starts a full window of
`window` consecutive entropy values all at or below `threshold`. -/
def collapseAt (history : List ℚ) (threshold : ℚ) (window i : Nat) : Prop :=
  i < history.length ∧ i + window ≤ history.length ∧
    ∀ j < window, history.getD (i + j) 0 ≤ threshold

/-- An agent as seen by utils.py: stable id, persona text, mutable current
stance (the enum's string `.value`, `none` when unset) and rationale. -/
structure Agent where
  id : String
  persona : String
  current_stance : Option String
  current_rationale : Option String
deriving DecidableEq

/-- Model of `get_stance_distribution` (utils.py lines 171-182):
`Counter(a.current_stance.value for a in agents if a.current_stance)`,
modelled as the list of distinct held stances with their multiplicities. -/
def get_stance_distribution (agents : List Agent) : List (String × Nat) :=
  (agents.filterMap fun a => a.current_stance).dedup.map
    fun s => (s, (agents.filterMap fun a => a.current_stance).count s)

/-- The peer-state dict built by `sample_peers`:
`{id, persona, stance, rationale}`. -/
structure PeerView where
  id : String
  persona : String
  stance : Option String
  rationale : Option String
deriving DecidableEq

def toPeerView (a : Agent) : PeerView :=
  ⟨a.id, a.persona, a.current_stance, a.current_rationale⟩

/-- The sort key of `sampled.sort(key=lambda x: x.id)`. -/
def agentLe (a b : Agent) : Prop := a.id ≤ b.id

instance : DecidableRel agentLe := fun a b =>
  inferInstanceAs (Decidable (a.id ≤ b.id))

instance : IsTotal Agent agentLe := ⟨fun a b => le_total a.id b.id⟩

instance : IsTrans Agent agentLe := ⟨fun _ _ _ h1 h2 => le_trans h1 h2⟩

/-- Model of `sample_peers` (utils.py lines 191-230), parametric in the seeded
pseudo-random sampler standing for `random.Random(seed).sample` (resp. the
module-level `random.sample` when no seed is given): exclude the invoking
agent, draw `min(k, len(peers))` peers, sort by id, and project each peer
to its state dict. -/
def sample_peers (sampler : Option Nat → List Agent → Nat → List Agent)
    (agents : List Agent) (current_agent_id : String) (k : Nat)
    (seed : Option Nat) : List PeerView :=
  let peers := agents.filter fun a => decide (a.id ≠ current_agent_id)
  let sampled := sampler seed peers (min k peers.length)
  (List.insertionSort agentLe sampled).map toPeerView

/-- JSON values, as produced by `json.loads`. Objects keep their key order
(Python dicts preserve insertion order); numbers are modelled as integers
(no experiment response in scope carries fractional JSON numbers). -/
inductive Json where
  | null
  | bool (b : Bool)
  | num (n : Int)
  | str (s : String)
  | arr (elems : List Json)
  | obj (fields : List (String × Json))

/-- JSON whitespace (also the practically relevant part of `str.strip`). -/
def isWsChar (c : Char) : Bool :=
  c == ' ' || c == '\t' || c == '\n' || c == '\r'

def skipWs (cs : List Char) : List Char := cs.dropWhile isWsChar

/-- Python `str.strip()` on ASCII text: drop whitespace at both ends. -/
def stripStr (s : String) : String :=
  ⟨((s.data.dropWhile isWsChar).reverse.dropWhile isWsChar).reverse⟩

/-- JSON string escape sequences (`\uXXXX` escapes are outside the model). -/
def escChar (c : Char) : Option Char :=
  if c = '"' then some '"'
  else if c = '\\' then some '\\'
  else if c = '/' then some '/'
  else if c = 'n' then some '\n'
  else if c = 't' then some '\t'
  else if c = 'r' then some '\r'
  else if c = 'b' then some (Char.ofNat 8)
  else if c = 'f' then some (Char.ofNat 12)
  else none

/-- Parse the body of a JSON string (after the opening quote), rejecting
raw control characters, as `json.loads` does. -/
def parseStrAux : List Char → List Char → Option (String × List Char)
  | [], _ => none
  | '"' :: rest, acc => some (⟨acc.reverse⟩, rest)
  | '\\' :: rest, acc =>
    match rest with
    | [] => none
    | e :: rest2 =>
      match escChar e with
      | some d => parseStrAux rest2 (d :: acc)
      | none => none
  | c :: rest, acc => if c.val < 32 then none else parseStrAux rest (c :: acc)

def digitsToNat (ds : List Char) : Nat :=
  ds.foldl (fun n c => n * 10 + (c.toNat - '0'.toNat)) 0

/-- Parser modes: a value, the members of an object (after at least one is
required), or the elements of an array. -/
inductive PMode where
  | value
  | members (acc : List (String × Json))
  | elems (acc : List Json)

/-- Parse a JSON integer (leading zeros rejected; fractional and exponent
forms are outside the model). -/
def parseNum (cs : List Char) : Option (Json × List Char) :=
  let (neg, cs1) := match cs with
    | '-' :: rest => (true, rest)
    | _ => (false, cs)
  let ds := cs1.takeWhile Char.isDigit
  let rest := cs1.dropWhile Char.isDigit
  if ds.isEmpty then none
  else if 1 < ds.length && ds.headD '0' == '0' then none
  else match rest with
    | '.' :: _ => none
    | 'e' :: _ => none
    | 'E' :: _ => none
    | _ =>
      let n : Int := Int.ofNat (digitsToNat ds)
      some (.num (if neg then -n else n), rest)

/-- Recursive-descent JSON parser, fuelled so that it is structurally
recursive (any recursion consumes at least one character, so fuel equal to
the input length suffices). -/
def parseJ : Nat → PMode → List Char → Option (Json × List Char)
  | 0, _, _ => none
  | fuel + 1, .value, cs =>
    match skipWs cs with
    | '{' :: rest =>
      (match skipWs rest with
       | '}' :: rest2 => some (.obj [], rest2)
       | rest1 => parseJ fuel (.members []) rest1)
    | '[' :: rest =>
      (match skipWs rest with
       | ']' :: rest2 => some (.arr [], rest2)
       | rest1 => parseJ fuel (.elems []) rest1)
    | '"' :: rest =>
      (match parseStrAux rest [] with
       | some (s, r) => some (.str s, r)
       | none => none)
    | 't' :: 'r' :: 'u' :: 'e' :: rest => some (.bool true, rest)
    | 'f' :: 'a' :: 'l' :: 's' :: 'e' :: rest => some (.bool false, rest)
    | 'n' :: 'u' :: 'l' :: 'l' :: rest => some (.null, rest)
    | cs1 => parseNum cs1
  | fuel + 1, .members acc, cs =>
    (match cs with
     | '"' :: rest =>
       (match parseStrAux rest [] with
        | some (key, r1) =>
          (match skipWs r1 with
           | ':' :: r2 =>
             (match parseJ fuel .value r2 with
              | some (v, r3) =>
                (match skipWs r3 with
                 | ',' :: r4 => parseJ fuel (.members (acc ++ [(key, v)])) (skipWs r4)
                 | '}' :: r4 => some (.obj (acc ++ [(key, v)]), r4)
                 | _ => none)
              | none => none)
           | _ => none)
        | none => none)
     | _ => none)
  | fuel + 1, .elems acc, cs =>
    (match parseJ fuel .value cs with
     | some (v, r1) =>
       (match skipWs r1 with
        | ',' :: r2 => parseJ fuel (.elems (acc ++ [v])) (skipWs r2)
        | ']' :: r2 => some (.arr (acc ++ [v]), r2)
        | _ => none)
     | none => none)

/-- Model of `json.loads`: parse one JSON document and require only
whitespace to remain. -/
def json_loads (s : String) : Option Json :=
  match parseJ (s.length + 1) .value s.data with
  | some (j, rest) => if (skipWs rest).isEmpty then some j else none
  | none => none

/-- First index (if any) at which `pat` occurs as a contiguous substring. -/
def findSub (pat : List Char) : List Char → Option Nat
  | [] => if pat.isEmpty then some 0 else none
  | c :: rest =>
    if pat.isPrefixOf (c :: rest) then some 0
    else (findSub pat rest).map (· + 1)

/-- Extraction of a json-labelled fenced block: the candidate of the regex
pattern 1 of `_parse_json_response` (llm_client.py line 142).  The
leftmost match of the regex starts at the first occurrence of the opening
tag that has a closing fence after it, and (if the first occurrence has no
closing fence, no later one does), its lazily-matched interior ends at the
first closing fence; the code strips the candidate before parsing, which
absorbs the surrounding whitespace handling of the pattern. -/
def extractFencedJson (text : String) : Option String :=
  let cs := text.data
  match findSub ("```json").data cs with
  | none => none
  | some o =>
    match findSub ("```").data (cs.drop (o + 7)) with
    | none => none
    | some c => some (stripStr ⟨(cs.drop (o + 7)).take c⟩)

/-- Extraction of any fenced block: regex pattern 2 of
`_parse_json_response` (llm_client.py line 143). -/
def extractFencedAny (text : String) : Option String :=
  let cs := text.data
  match findSub ("```").data cs with
  | none => none
  | some o =>
    match findSub ("```").data (cs.drop (o + 3)) with
    | none => none
    | some c => some (stripStr ⟨(cs.drop (o + 3)).take c⟩)

/-- Extraction of the brace span: regex pattern 3 of `_parse_json_response`
(llm_client.py line 144).  The pattern is greedy, so the match of the
leftmost-starting match runs from the first opening brace to the last
closing brace of the whole text (a match exists iff some closing brace
lies strictly after the first opening brace). -/
def extractBrace (text : String) : Option String :=
  let cs := text.data
  match cs.findIdx? (fun c => c == '{'), cs.reverse.findIdx? (fun c => c == '}') with
  | some i, some jr =>
    let j := cs.length - 1 - jr
    if i < j then some ⟨(cs.take (j + 1)).drop i⟩ else none
  | _, _ => none

/-- One iteration of the pattern loop: if the pattern produced a candidate,
strip it and try `json.loads`, else report no result for this pattern. -/
def attemptJson (cand : Option String) : Option Json :=
  match cand with
  | some s => json_loads (stripStr s)
  | none => none

/-- Model of `OllamaClient._parse_json_response` (llm_client.py lines
126-156): empty input yields nothing; otherwise try a direct parse of the
stripped text, then each extraction pattern in order, returning the first
successful parse. -/
def parse_json_response (text : String) : Option Json :=
  if text = "" then none
  else
    match json_loads (stripStr text) with
    | some j => some j
    | none =>
      match attemptJson (extractFencedJson text) with
      | some j => some j
      | none =>
        match attemptJson (extractFencedAny text) with
        | some j => some j
        | none => attemptJson (extractBrace text)

/-- Position of the brace closing the object opened by the first character
(which is expected to be an opening brace), by depth counting. -/
def matchBrace : List Char → Nat → Nat → Option Nat
  | [], _, _ => none
  | c :: rest, depth, pos =>
    if c == '{' then matchBrace rest (depth + 1) (pos + 1)
    else if c == '}' then
      (if depth = 1 then some pos else matchBrace rest (depth - 1) (pos + 1))
    else matchBrace rest depth (pos + 1)

/-- Written from the specification text of extraction step (d): the first
balanced brace-delimited object found in the text (used to compare the
claimed behaviour with the implemented greedy regex). -/
def firstBalancedObject (text : String) : Option String :=
  let cs := text.data
  match cs.findIdx? (fun c => c == '{') with
  | none => none
  | some i =>
    match matchBrace (cs.drop i) 0 0 with
    | some rel => some ⟨(cs.take (i + rel + 1)).drop i⟩
    | none => none

/-- Result dictionary of `OllamaClient.generate` (llm_client.py lines
90-96 and 117-124); the constant `model` key is omitted, and the
success-path dictionary, which carries no `error` key, is modelled with
`error := none`. -/
structure GenResult where
  response : Option String
  parsed : Option Json
  success : Bool
  error : Option String
  attempt : Nat

/-- Retry loop of `OllamaClient.generate` (llm_client.py lines 74-124),
counting down the remaining attempts of `for attempt in range(max_retries)`.
The transport is a function from the attempt index to either an error
description (any caught exception) or the raw response text; the second
component of the result collects the `time.sleep` durations
`retry_delay * (attempt + 1)` executed between consecutive attempts. -/
def genAux (transport : Nat → Except String String) (maxRetries : Nat)
    (retryDelay : ℚ) : Nat → Nat → Option String → GenResult × List ℚ
  | 0, _, lastErr =>
    ({ response := none, parsed := none, success := false, error := lastErr,
       attempt := maxRetries }, [])
  | remaining + 1, attempt, _lastErr =>
    match transport attempt with
    | .ok raw =>
      ({ response := some raw, parsed := parse_json_response raw,
         success := (parse_json_response raw).isSome, error := none,
         attempt := attempt + 1 }, [])
    | .error e =>
      if attempt < maxRetries - 1 then
        ((genAux transport maxRetries retryDelay remaining (attempt + 1) (some e)).1,
         retryDelay * ((attempt : ℚ) + 1) ::
           (genAux transport maxRetries retryDelay remaining (attempt + 1) (some e)).2)
      else genAux transport maxRetries retryDelay remaining (attempt + 1) (some e)

/-- Model of `OllamaClient.generate`: run the retry loop from attempt 0
with no recorded error. -/
def generate (transport : Nat → Except String String) (maxRetries : Nat)
    (retryDelay : ℚ) : GenResult × List ℚ :=
  genAux transport maxRetries retryDelay maxRetries 0 none

/-- Term contributed to the entropy sum by one stance count: the loop body
of `calculate_entropy` adds `p * log2(p)` (to be negated) only when the
count is positive. -/
noncomputable def entropyTerm (total : ℝ) (c : Nat) : ℝ :=
  if 0 < c then ((c : ℝ) / total) * Real.logb 2 ((c : ℝ) / total) else 0

/-- Model of `calculate_entropy` (utils.py lines 118-140): Shannon entropy
in bits of a stance-count distribution (only the counts matter, so the
distribution is its list of per-stance counts); 0 when the total count is
0. -/
noncomputable def calculate_entropy (counts : List Nat) : ℝ :=
  if counts.sum = 0 then 0
  else -(counts.map (entropyTerm (counts.sum : ℝ))).sum

/-- Probability of the stance at position `i` of the distribution. -/
noncomputable def stanceP (counts : List Nat) (i : Fin counts.length) : ℝ :=
  (counts.get i : ℝ) / (counts.sum : ℝ)

/-- Index set of the stances with a nonzero count. -/
def posIdx (counts : List Nat) : Finset (Fin counts.length) :=
  Finset.univ.filter fun i => 0 < counts.get i

lemma foldl_lastComplete (log : List LogLine) :
    ∀ st : ResumeState,
      (log.foldl stepLine st).lastComplete =
        (roundEnds log).foldl maxStep st.lastComplete := by
  induction log with
  | nil => intro st; rfl
  | cons l ls ih =>
      intro st
      cases l with
      | blank => simpa [roundEnds, List.filterMap_cons] using ih st
      | invalid => simpa [roundEnds, List.filterMap_cons] using ih st
      | event e =>
          cases e with
          | agentResponse r a s ra =>
              simpa [roundEnds, List.filterMap_cons, stepLine] using
                ih { st with responses := fun r2 a2 =>
                  if r2 = r ∧ a2 = a then some (s, ra) else st.responses r2 a2 }
          | roundEnd r =>
              have hstep : (stepLine st (.event (.roundEnd r))).lastComplete =
                  maxStep st.lastComplete r := by
                cases h : st.lastComplete with
                | none => simp [stepLine, maxStep, h]
                | some c =>
                    by_cases hc : c < r <;> simp [stepLine, maxStep, h, hc]
              have hresp : (stepLine st (.event (.roundEnd r))).responses =
                  st.responses := by
                cases h : st.lastComplete with
                | none => simp [stepLine, h]
                | some c =>
                    by_cases hc : c < r <;> simp [stepLine, h, hc]
              have := ih (stepLine st (.event (.roundEnd r)))
              rw [List.foldl_cons, this, hstep]
              simp [roundEnds, List.filterMap_cons]
          | otherEvent => simpa [roundEnds, List.filterMap_cons] using ih st

lemma foldl_maxStep_some (rs : List Nat) :
    ∀ c : Nat, rs.foldl maxStep (some c) = some (rs.foldl max c) := by
  induction rs with
  | nil => intro c; rfl
  | cons r rs ih =>
      intro c
      have : maxStep (some c) r = some (max c r) := by
        by_cases h : c < r
        · simp [maxStep, h, Nat.max_eq_right (Nat.le_of_lt h)]
        · simp [maxStep, h, Nat.max_eq_left (Nat.le_of_not_lt h)]
      simp only [List.foldl_cons, this, ih]

lemma foldl_max_facts (rs : List Nat) :
    ∀ c : Nat, c ≤ rs.foldl max c ∧ (∀ x ∈ rs, x ≤ rs.foldl max c) ∧
      (rs.foldl max c = c ∨ rs.foldl max c ∈ rs) := by
  induction rs with
  | nil => intro c; exact ⟨le_refl c, by simp, Or.inl rfl⟩
  | cons r rs ih =>
      intro c
      obtain ⟨h1, h2, h3⟩ := ih (max c r)
      simp only [List.foldl_cons]
      refine ⟨le_trans (Nat.le_max_left c r) h1, ?_, ?_⟩
      · intro x hx
        rcases List.mem_cons.1 hx with rfl | hx
        · exact le_trans (Nat.le_max_right c x) h1
        · exact h2 x hx
      · rcases h3 with h3 | h3
        · rcases max_choice c r with hm | hm
          · exact Or.inl (by rw [h3, hm])
          · exact Or.inr (List.mem_cons.2 (Or.inl (by rw [h3, hm])))
        · exact Or.inr (List.mem_cons.2 (Or.inr h3))

lemma respStep_lastwins (r : Nat) (a : String) (log : List LogLine) :
    ∀ acc, log.foldl (respStep r a) acc =
      match log.foldl (respStep r a) none with
      | some p => some p
      | none => acc := by
  induction log with
  | nil => intro acc; rfl
  | cons l ls ih =>
      intro acc
      by_cases hl : ∃ r2 a2 s ra, l = .event (.agentResponse r2 a2 s ra) ∧ r2 = r ∧ a2 = a
      · obtain ⟨r2, a2, s, ra, rfl, h1, h2⟩ := hl
        have hs : ∀ x, respStep r a x (.event (.agentResponse r2 a2 s ra)) = some (s, ra) := by
          intro x; simp [respStep, h1, h2]
        rw [List.foldl_cons, List.foldl_cons, hs, hs, ih (some (s, ra))]
        cases ls.foldl (respStep r a) none <;> rfl
      · have hs : ∀ x, respStep r a x l = x := by
          intro x
          cases l with
          | blank => rfl
          | invalid => rfl
          | event e =>
              cases e with
              | agentResponse r2 a2 s ra =>
                  have : ¬(r2 = r ∧ a2 = a) := by
                    intro ⟨h1, h2⟩; exact hl ⟨r2, a2, s, ra, rfl, h1, h2⟩
                  simp [respStep, this]
              | roundEnd r2 => rfl
              | otherEvent => rfl
        rw [List.foldl_cons, List.foldl_cons, hs, hs, ih acc]

lemma foldl_responses (log : List LogLine) :
    ∀ (st : ResumeState) (r : Nat) (a : String),
      (log.foldl stepLine st).responses r a =
        match lastResponseFor log r a with
        | some p => some p
        | none => st.responses r a := by
  induction log with
  | nil => intro st r a; rfl
  | cons l ls ih =>
      intro st r a
      have hlast : lastResponseFor (l :: ls) r a =
          ls.foldl (respStep r a) (respStep r a none l) := rfl
      by_cases hl : ∃ r2 a2 s ra, l = .event (.agentResponse r2 a2 s ra) ∧ r2 = r ∧ a2 = a
      · obtain ⟨r2, a2, s, ra, rfl, h1, h2⟩ := hl
        have hstep : (stepLine st (.event (.agentResponse r2 a2 s ra))).responses r a =
            some (s, ra) := by
          simp [stepLine, h1, h2]
        have hs0 : respStep r a none (.event (.agentResponse r2 a2 s ra)) = some (s, ra) := by
          simp [respStep, h1, h2]
        have hamend : lastResponseFor (.event (.agentResponse r2 a2 s ra) :: ls) r a =
            match lastResponseFor ls r a with
            | some p => some p
            | none => some (s, ra) := by
          rw [hlast, hs0]
          exact respStep_lastwins r a ls (some (s, ra))
        rw [List.foldl_cons, ih, hstep, hamend]
        cases lastResponseFor ls r a <;> rfl
      · have hstep : (stepLine st l).responses r a = st.responses r a := by
          cases l with
          | blank => rfl
          | invalid => rfl
          | event e =>
              cases e with
              | agentResponse r2 a2 s ra =>
                  have : ¬(r = r2 ∧ a = a2) := by
                    intro ⟨h1, h2⟩; exact hl ⟨r2, a2, s, ra, rfl, h1.symm, h2.symm⟩
                  simp [stepLine, this]
              | roundEnd r2 =>
                  cases h : st.lastComplete with
                  | none => simp [stepLine, h]
                  | some c => by_cases hc : c < r2 <;> simp [stepLine, h, hc]
              | otherEvent => rfl
        have hs0 : respStep r a none l = none := by
          cases l with
          | blank => rfl
          | invalid => rfl
          | event e =>
              cases e with
              | agentResponse r2 a2 s ra =>
                  have : ¬(r2 = r ∧ a2 = a) := by
                    intro ⟨h1, h2⟩; exact hl ⟨r2, a2, s, ra, rfl, h1, h2⟩
                  simp [respStep, this]
              | roundEnd r2 => rfl
              | otherEvent => rfl
        have hsame : lastResponseFor (l :: ls) r a = lastResponseFor ls r a := by
          rw [hlast, hs0]; rfl
        rw [List.foldl_cons, ih, hstep, hsame]

/-- C1: `find_last_complete_round` returns the highest round number having a
`round_end` event (characterised as a member of `roundEnds` that bounds all
of them), `none` with an empty state map when no `round_end` event exists,
and for the returned round the per-agent state is the last `agent_response`
for that (round, agent) pair in log order (last-write-wins). -/
theorem find_last_complete_round_correct (log : List LogLine) :
    (roundEnds log = [] → find_last_complete_round log = (none, fun _ => none))
    ∧ (∀ r, (find_last_complete_round log).1 = some r ↔
        (r ∈ roundEnds log ∧ ∀ x ∈ roundEnds log, x ≤ r))
    ∧ (∀ r a, (find_last_complete_round log).1 = some r →
        (find_last_complete_round log).2 a = lastResponseFor log r a) := by
  have hlast : (log.foldl stepLine initState).lastComplete =
      (roundEnds log).foldl maxStep none := foldl_lastComplete log initState
  refine ⟨?_, ?_, ?_⟩
  · intro h
    unfold find_last_complete_round
    rw [hlast, h]
    rfl
  · intro r
    unfold find_last_complete_round
    rw [hlast]
    cases hre : roundEnds log with
    | nil =>
        simp only [List.foldl_nil]
        constructor
        · intro h; cases h
        · rintro ⟨hmem, -⟩; cases hmem
    | cons r0 rs =>
        rw [List.foldl_cons]
        have : maxStep none r0 = some r0 := rfl
        rw [this, foldl_maxStep_some]
        obtain ⟨h1, h2, h3⟩ := foldl_max_facts rs r0
        constructor
        · intro h
          have hr : r = rs.foldl max r0 := by
            simpa using h.symm
          subst hr
          refine ⟨?_, ?_⟩
          · rcases h3 with h3 | h3
            · rw [h3]; exact List.mem_cons_self r0 rs
            · exact List.mem_cons.2 (Or.inr h3)
          · intro x hx
            rcases List.mem_cons.1 hx with rfl | hx
            · exact h1
            · exact h2 x hx
        · rintro ⟨hmem, hub⟩
          have hle : rs.foldl max r0 ≤ r := by
            rcases h3 with h3 | h3
            · rw [h3]; exact hub r0 (List.mem_cons_self r0 rs)
            · exact hub _ (List.mem_cons.2 (Or.inr h3))
          have hge : r ≤ rs.foldl max r0 := by
            rcases List.mem_cons.1 hmem with rfl | hx
            · exact h1
            · exact h2 r hx
          rw [Nat.le_antisymm hge hle]
  · intro r a h
    have hresp := foldl_responses log initState r a
    unfold find_last_complete_round at h ⊢
    rw [hlast] at h ⊢
    cases hfold : (roundEnds log).foldl maxStep none with
    | none => rw [hfold] at h; simp at h
    | some m =>
        rw [hfold] at h
        have hm : m = r := by simpa using h
        subst hm
        show (log.foldl stepLine initState).responses m a = lastResponseFor log m a
        rw [hresp]
        cases lastResponseFor log m a <;> rfl

/-- Witness for C1 at a concrete log: two `round_end` events (rounds 2
and 1) and two responses of agent "a" in round 2; the reconstructed state
is the later response. -/
theorem find_last_complete_round_correct_witness :
    (find_last_complete_round
      [.event (.agentResponse 2 "a" (some "S1") (some "R1")),
       .event (.roundEnd 2),
       .event (.agentResponse 2 "a" (some "S2") (some "R2")),
       .event (.roundEnd 1)]).2 "a" = some (some "S2", some "R2") := by
  have h := (find_last_complete_round_correct
      [.event (.agentResponse 2 "a" (some "S1") (some "R1")),
       .event (.roundEnd 2),
       .event (.agentResponse 2 "a" (some "S2") (some "R2")),
       .event (.roundEnd 1)]).2.2 2 "a" (by decide)
  rw [h]; rfl

lemma truncAux_eq (t : Nat) : ∀ log : List LogLine,
    truncAux t log =
      if (.event (.roundEnd t)) ∈ log
      then some ((log.takeWhile fun l => !(isTargetEnd t l)) ++ [.event (.roundEnd t)])
      else none := by
  intro log
  induction log with
  | nil => simp [truncAux]
  | cons l ls ih =>
      by_cases h : isTargetEnd t l
      · have hl : l = .event (.roundEnd t) := by simpa [isTargetEnd] using h
        subst hl
        simp [truncAux, h, List.takeWhile_cons, List.mem_cons]
      · have hl : l ≠ .event (.roundEnd t) := by simpa [isTargetEnd] using h
        rw [truncAux, if_neg h, ih]
        by_cases hm : (.event (.roundEnd t)) ∈ ls
        · simp [hm, hl, List.takeWhile_cons, h]
        · simp [hm, hl, Ne.symm hl]

/-- C2: if the log contains a `round_end` event for the target round,
`truncate_log_to_round` reports success and the file becomes exactly the
prefix of lines up to and including the first such event; otherwise it
reports failure and the file is unchanged. -/
theorem truncate_log_to_round_correct (log : List LogLine) (t : Nat) :
    ((.event (.roundEnd t)) ∈ log →
      truncate_log_to_round log t =
        (true, (log.takeWhile fun l => !(isTargetEnd t l)) ++ [.event (.roundEnd t)]))
    ∧ ((.event (.roundEnd t)) ∉ log → truncate_log_to_round log t = (false, log)) := by
  constructor <;> intro h <;> simp [truncate_log_to_round, truncAux_eq, h]

/-- Witness for C2: truncating a log with a later partial round to round 2
keeps everything through round 2's `round_end` (including an earlier
corrupt line) and drops the partial round-3 data; truncating to round 9
fails and leaves the log unchanged. -/
theorem truncate_log_to_round_correct_witness :
    truncate_log_to_round
        [.event (.roundEnd 1), .invalid, .event (.roundEnd 2),
         .event (.agentResponse 3 "a" none none)] 2 =
      (true, [.event (.roundEnd 1), .invalid, .event (.roundEnd 2)])
    ∧ truncate_log_to_round
        [.event (.roundEnd 1), .invalid, .event (.roundEnd 2),
         .event (.agentResponse 3 "a" none none)] 9 =
      (false, [.event (.roundEnd 1), .invalid, .event (.roundEnd 2),
         .event (.agentResponse 3 "a" none none)]) := by
  constructor
  · have h := (truncate_log_to_round_correct
        [.event (.roundEnd 1), .invalid, .event (.roundEnd 2),
         .event (.agentResponse 3 "a" none none)] 2).1 (by decide)
    rw [h]; rfl
  · have h := (truncate_log_to_round_correct
        [.event (.roundEnd 1), .invalid, .event (.roundEnd 2),
         .event (.agentResponse 3 "a" none none)] 9).2 (by decide)
    rw [h]

lemma stepLine_filter : ∀ (log : List LogLine) (st : ResumeState),
    (log.filter isParsedLine).foldl stepLine st = log.foldl stepLine st := by
  intro log
  induction log with
  | nil => intro st; rfl
  | cons l ls ih =>
      intro st
      cases l with
      | blank => simpa [List.filter_cons, isParsedLine, stepLine] using ih st
      | invalid => simpa [List.filter_cons, isParsedLine, stepLine] using ih st
      | event e => simpa [List.filter_cons, isParsedLine] using ih (stepLine st (.event e))

lemma find_range_some (n : Nat) (p : Nat → Bool) :
    ∀ i, (List.range n).find? p = some i ↔
      (i < n ∧ p i = true ∧ ∀ j < i, p j = false) := by
  induction n generalizing p with
  | zero =>
      intro i
      simp [List.range_zero]
  | succ n ih =>
      intro i
      rw [List.range_succ_eq_map]
      cases hp : p 0 with
      | true =>
          rw [List.find?_cons_of_pos _ hp]
          constructor
          · rintro h
            have : i = 0 := by simpa using h.symm
            subst this
            exact ⟨Nat.succ_pos n, hp, by omega⟩
          · rintro ⟨-, -, hmin⟩
            rcases Nat.eq_zero_or_pos i with rfl | hpos
            · rfl
            · exact absurd hp (by simp [hmin 0 hpos])
      | false =>
          rw [List.find?_cons_of_neg _ (by simp [hp]), List.find?_map]
          constructor
          · intro h
            rcases Option.map_eq_some'.1 h with ⟨i0, hi0, rfl⟩
            obtain ⟨h1, h2, h3⟩ := (ih (fun j => p (j + 1)) i0).1 hi0
            refine ⟨by omega, by simpa using h2, ?_⟩
            intro j hj
            cases j with
            | zero => exact hp
            | succ j => exact h3 j (by omega)
          · rintro ⟨h1, h2, h3⟩
            cases i with
            | zero => exact absurd hp (by simp [h2])
            | succ i0 =>
                have := (ih (fun j => p (j + 1)) i0).2
                  ⟨by omega, h2, fun j hj => h3 (j + 1) (by omega)⟩
                rw [Option.map_eq_some']
                exact ⟨i0, this, rfl⟩

lemma windowAll_iff (history : List ℚ) (threshold : ℚ) (i window : Nat)
    (h : i + window ≤ history.length) :
    windowAll history threshold i window = true ↔
      ∀ j < window, history.getD (i + j) 0 ≤ threshold := by
  rw [windowAll, List.all_eq_true]
  constructor
  · intro hall j hj
    have hlt : i + j < history.length := by omega
    have hmem : history[i + j] ∈ (history.drop i).take window := by
      rw [List.mem_iff_getElem]
      have hlen : ((history.drop i).take window).length = window := by
        simp [List.length_take, List.length_drop]; omega
      refine ⟨j, by omega, ?_⟩
      rw [List.getElem_take, List.getElem_drop]
    have := hall _ hmem
    rw [List.getD_eq_getElem _ _ hlt]
    exact of_decide_eq_true this
  · intro hj x hx
    rw [List.mem_iff_getElem] at hx
    obtain ⟨j, hjlt, rfl⟩ := hx
    have hlen : ((history.drop i).take window).length = window := by
      simp [List.length_take, List.length_drop]; omega
    rw [List.getElem_take, List.getElem_drop]
    have hjw : j < window := by omega
    have := hj j hjw
    rw [List.getD_eq_getElem _ _ (by omega : i + j < history.length)] at this
    exact decide_eq_true this

/-- C3: `calculate_time_to_collapse` returns the smallest round index `i`
whose full window `history[i : i + window]` lies at or below the
threshold, and `none` exactly when no round index starts such a window; on
the documented example `[1.0, 0.9, 0.4, 0.3, 0.2]` with threshold `0.469`
and window 2 it returns index 2. -/
theorem calculate_time_to_collapse_correct (history : List ℚ) (threshold : ℚ)
    (window : Nat) :
    (∀ i, calculate_time_to_collapse history threshold window = some i ↔
      (collapseAt history threshold window i ∧
        ∀ j < i, ¬ collapseAt history threshold window j))
    ∧ (calculate_time_to_collapse history threshold window = none ↔
        ∀ i, ¬ collapseAt history threshold window i)
    ∧ calculate_time_to_collapse [1, 0.9, 0.4, 0.3, 0.2] 0.469 2 = some 2 := by
  refine ⟨?_, ?_, by rw [calculate_time_to_collapse]; norm_num [List.range_succ, List.find?, windowAll]⟩
  all_goals
    by_cases hemp : history.isEmpty
  · intro i
    have hlen : history.length = 0 := by simpa [List.isEmpty_iff_length_eq_zero] using hemp
    simp only [calculate_time_to_collapse, hemp, if_pos]
    constructor
    · intro h; cases h
    · rintro ⟨⟨h1, -, -⟩, -⟩; omega
  · intro i
    have hlen : 1 ≤ history.length := by
      rcases Nat.eq_zero_or_pos history.length with h0 | h0
      · exact absurd (List.isEmpty_iff_length_eq_zero.2 h0) hemp
      · exact h0
    rw [calculate_time_to_collapse, if_neg (by simp [hemp]),
      find_range_some]
    rcases Nat.eq_zero_or_pos window with rfl | hw
    · constructor
      · rintro ⟨h1, -, hmin⟩
        have hi0 : i = 0 := by
          by_contra hne
          have := hmin 0 (by omega)
          simp [windowAll] at this
        subst hi0
        exact ⟨⟨by omega, by omega, by omega⟩, by omega⟩
      · rintro ⟨⟨h1, -, -⟩, hmin⟩
        have hi0 : i = 0 := by
          by_contra hne
          exact hmin 0 (by omega) ⟨by omega, by omega, by omega⟩
        subst hi0
        exact ⟨by omega, by simp [windowAll], by omega⟩
    · have hpoint : ∀ k, (k < history.length + 1 - window ∧
          windowAll history threshold k window = true) ↔
          collapseAt history threshold window k := by
        intro k
        constructor
        · rintro ⟨hk, hall⟩
          have hkw : k + window ≤ history.length := by omega
          exact ⟨by omega, hkw, (windowAll_iff _ _ _ _ hkw).1 hall⟩
        · rintro ⟨h1, h2, h3⟩
          exact ⟨by omega, (windowAll_iff _ _ _ _ h2).2 h3⟩
      constructor
      · rintro ⟨h1, h2, h3⟩
        refine ⟨(hpoint i).1 ⟨h1, h2⟩, ?_⟩
        intro j hj hc
        have := (hpoint j).2 hc
        rw [h3 j hj] at this
        exact absurd this.2 (by simp)
      · rintro ⟨hc, hmin⟩
        have hq := (hpoint i).2 hc
        refine ⟨hq.1, hq.2, ?_⟩
        intro j hj
        by_contra hne
        have hb : windowAll history threshold j window = true := by
          cases h : windowAll history threshold j window
          · exact absurd h (by simp [hne])
          · rfl
        have hjn : j < history.length + 1 - window := by omega
        exact hmin j hj ((hpoint j).1 ⟨hjn, hb⟩)
  · have hlen : history.length = 0 := by simpa [List.isEmpty_iff_length_eq_zero] using hemp
    simp only [calculate_time_to_collapse, hemp, if_pos]
    constructor
    · rintro - i ⟨h1, -, -⟩; omega
    · intro _; trivial
  · have hlen : 1 ≤ history.length := by
      rcases Nat.eq_zero_or_pos history.length with h0 | h0
      · exact absurd (List.isEmpty_iff_length_eq_zero.2 h0) hemp
      · exact h0
    rw [calculate_time_to_collapse, if_neg (by simp [hemp]), List.find?_eq_none]
    rcases Nat.eq_zero_or_pos window with rfl | hw
    · constructor
      · intro hall
        have h0 : (0 : Nat) ∈ List.range (history.length + 1 - 0) :=
          List.mem_range.2 (by omega)
        have := hall 0 h0
        simp [windowAll] at this
      · intro hall
        exact absurd ⟨by omega, by omega, by omega⟩ (hall 0)
    · have hpoint : ∀ k, (k < history.length + 1 - window ∧
          windowAll history threshold k window = true) ↔
          collapseAt history threshold window k := by
        intro k
        constructor
        · rintro ⟨hk, hall⟩
          have hkw : k + window ≤ history.length := by omega
          exact ⟨by omega, hkw, (windowAll_iff _ _ _ _ hkw).1 hall⟩
        · rintro ⟨h1, h2, h3⟩
          exact ⟨by omega, (windowAll_iff _ _ _ _ h2).2 h3⟩
      constructor
      · intro hall i hc
        have hq := (hpoint i).2 hc
        have hmem : i ∈ List.range (history.length + 1 - window) :=
          List.mem_range.2 hq.1
        exact absurd hq.2 (by simpa using hall i hmem)
      · intro hall i hmem
        intro hb
        exact hall i ((hpoint i).1 ⟨List.mem_range.1 hmem, hb⟩)

/-- Witness for C3: from the characterisation and the concrete example,
index 2 of the example history starts a collapsed window and index 1 does
not. -/
theorem calculate_time_to_collapse_correct_witness :
    collapseAt [1, 0.9, 0.4, 0.3, 0.2] 0.469 2 2 ∧
      ¬ collapseAt [1, 0.9, 0.4, 0.3, 0.2] 0.469 2 1 := by
  have h := calculate_time_to_collapse_correct [1, 0.9, 0.4, 0.3, 0.2] 0.469 2
  have h2 := (h.1 2).mp h.2.2
  exact ⟨h2.1, h2.2 1 (by omega)⟩

/-- C9: when the history is strictly shorter than the window, the collapse
search returns `None` even if every entropy value is at or below the
threshold; in particular `[0.1]` with threshold `0.469` and window 2. -/
theorem calculate_time_to_collapse_short_history (history : List ℚ)
    (threshold : ℚ) (window : Nat) (h : history.length < window) :
    calculate_time_to_collapse history threshold window = none ∧
      calculate_time_to_collapse [(0.1 : ℚ)] 0.469 2 = none := by
  refine ⟨?_, by decide⟩
  rw [calculate_time_to_collapse]
  by_cases hemp : history.isEmpty
  · rw [if_pos hemp]
  · rw [if_neg hemp]
    have : history.length + 1 - window = 0 := by omega
    rw [this]
    rfl

/-- Witness for C9 at the concrete short history `[0.1]`. -/
theorem calculate_time_to_collapse_short_history_witness :
    calculate_time_to_collapse [(0.1 : ℚ)] 0.469 2 = none :=
  (calculate_time_to_collapse_short_history [(0.1 : ℚ)] 0.469 2 (by decide)).1

lemma length_filterMap_stance (agents : List Agent) :
    (agents.filterMap fun a => a.current_stance).length =
      (agents.filter fun a => a.current_stance.isSome).length := by
  induction agents with
  | nil => rfl
  | cons a rest ih =>
      cases h : a.current_stance with
      | none => simpa [List.filterMap_cons, List.filter_cons, h] using ih
      | some s => simpa [List.filterMap_cons, List.filter_cons, h] using ih

/-- C8: the per-stance counts produced by `get_stance_distribution` sum to
the number of agents whose stance is set — agents with an unset stance are
never counted — and therefore to the population size once every agent
holds a stance (as is the case from the end of round 0 onwards). -/
theorem get_stance_distribution_sums (agents : List Agent) :
    ((get_stance_distribution agents).map Prod.snd).sum =
      (agents.filter fun a => a.current_stance.isSome).length
    ∧ ((∀ a ∈ agents, a.current_stance.isSome) →
        ((get_stance_distribution agents).map Prod.snd).sum = agents.length) := by
  have hmain : ((get_stance_distribution agents).map Prod.snd).sum =
      (agents.filter fun a => a.current_stance.isSome).length := by
    rw [get_stance_distribution, List.map_map, ← length_filterMap_stance]
    exact List.sum_map_count_dedup_eq_length _
  refine ⟨hmain, fun hall => ?_⟩
  rw [hmain, List.filter_eq_self.2 ?_]
  intro a ha
  simpa using hall a ha

/-- Witness for C8: a three-agent population with every stance set has
counts summing to 3. -/
theorem get_stance_distribution_sums_witness :
    ((get_stance_distribution
      [⟨"a0", "p0", some "YES", none⟩, ⟨"a1", "p1", some "NO", none⟩,
       ⟨"a2", "p2", some "YES", some "r"⟩]).map Prod.snd).sum = 3 :=
  (get_stance_distribution_sums
      [⟨"a0", "p0", some "YES", none⟩, ⟨"a1", "p1", some "NO", none⟩,
       ⟨"a2", "p2", some "YES", some "r"⟩]).2 (by decide)

lemma length_filter_ne_id (agents : List Agent) (cid : String)
    (hnodup : (agents.map Agent.id).Nodup) (hmem : cid ∈ agents.map Agent.id) :
    (agents.filter fun a => decide (a.id ≠ cid)).length = agents.length - 1 := by
  induction agents with
  | nil => cases hmem
  | cons a rest ih =>
      rw [List.map_cons, List.nodup_cons] at hnodup
      by_cases ha : a.id = cid
      · have hrest : (rest.filter fun x => decide (x.id ≠ cid)) = rest := by
          apply List.filter_eq_self.2
          intro b hb
          simp only [ne_eq, decide_eq_true_eq]
          intro he
          have hbm : a.id ∈ rest.map Agent.id := by
            rw [ha, ← he]
            exact List.mem_map_of_mem Agent.id hb
          exact hnodup.1 hbm
        rw [List.filter_cons, if_neg (by simp [ha]), hrest]
        simp
      · have hmem2 : cid ∈ rest.map Agent.id := by
          rcases List.mem_cons.1
              (show cid ∈ a.id :: rest.map Agent.id from hmem) with h | h
          · exact absurd h.symm ha
          · exact h
        have hlen : 1 ≤ rest.length := by
          rcases rest with - | ⟨b, rest⟩
          · simp at hmem2
          · simp
        have hrec := ih hnodup.2 hmem2
        rw [List.filter_cons, if_pos (by simpa using ha)]
        simp only [List.length_cons]
        omega

/-- C5: under the contract of `random.sample` (a without-replacement draw
of the requested size), `sample_peers` never returns the invoking agent,
has size `min(k, population − 1)`, is drawn without replacement from the
other agents, is sorted by agent id, and with `k ≥ population − 1` is a
permutation of all the other agents' states.  (Determinism for a fixed
seed is inherent in the embedding: the sampler is a function of the
seed.) -/
theorem sample_peers_correct
    (sampler : Option Nat → List Agent → Nat → List Agent)
    (hlen : ∀ seed l n, n ≤ l.length → (sampler seed l n).length = n)
    (hsub : ∀ seed l n, n ≤ l.length → List.Subperm (sampler seed l n) l)
    (agents : List Agent) (cid : String) (k : Nat) (seed : Option Nat)
    (hnodup : (agents.map Agent.id).Nodup)
    (hmem : cid ∈ agents.map Agent.id) :
    (∀ v ∈ sample_peers sampler agents cid k seed, v.id ≠ cid)
    ∧ (sample_peers sampler agents cid k seed).length = min k (agents.length - 1)
    ∧ List.Pairwise (fun u v : PeerView => u.id ≤ v.id)
        (sample_peers sampler agents cid k seed)
    ∧ List.Subperm (sample_peers sampler agents cid k seed)
        ((agents.filter fun a => decide (a.id ≠ cid)).map toPeerView)
    ∧ (agents.length - 1 ≤ k →
        (sample_peers sampler agents cid k seed).Perm
          ((agents.filter fun a => decide (a.id ≠ cid)).map toPeerView)) := by
  have hplen : (agents.filter fun a => decide (a.id ≠ cid)).length =
      agents.length - 1 := length_filter_ne_id agents cid hnodup hmem
  have hmin : min k (agents.filter fun a => decide (a.id ≠ cid)).length ≤
      (agents.filter fun a => decide (a.id ≠ cid)).length := Nat.min_le_right _ _
  have hslen := hlen seed _ _ hmin
  have hssub := hsub seed _ _ hmin
  have hperm := List.perm_insertionSort agentLe
      (sampler seed (agents.filter fun a => decide (a.id ≠ cid))
        (min k (agents.filter fun a => decide (a.id ≠ cid)).length))
  refine ⟨?_, ?_, ?_, ?_, ?_⟩
  · intro v hv
    rcases List.mem_map.1 hv with ⟨a, ha, rfl⟩
    have ha2 : a ∈ sampler seed (agents.filter fun a => decide (a.id ≠ cid))
        (min k (agents.filter fun a => decide (a.id ≠ cid)).length) :=
      hperm.mem_iff.1 ha
    have ha3 : a ∈ agents.filter fun a => decide (a.id ≠ cid) :=
      hssub.subset ha2
    have := List.of_mem_filter ha3
    simpa [toPeerView] using this
  · rw [sample_peers, List.length_map, hperm.length_eq, hslen, hplen]
  · rw [sample_peers, List.pairwise_map]
    exact List.sorted_insertionSort agentLe _
  · obtain ⟨mid, hp, hs⟩ := hssub
    exact ⟨mid.map toPeerView, (hp.trans hperm.symm).map toPeerView,
      hs.map toPeerView⟩
  · intro hk
    have hfull : min k (agents.filter fun a => decide (a.id ≠ cid)).length =
        (agents.filter fun a => decide (a.id ≠ cid)).length := by
      rw [hplen]; omega
    have hpl := hssub.perm_of_length_le (by rw [hslen, hfull])
    exact (hperm.trans hpl).map toPeerView

/-- Witness for C5: a deterministic prefix-taking sampler satisfies the
`random.sample` contract; on a three-agent population with `k = 5` the
invoking agent "a1" gets both other agents back. -/
theorem sample_peers_correct_witness :
    (sample_peers (fun _ l n => l.take n)
      [⟨"a0", "p0", some "YES", none⟩, ⟨"a1", "p1", some "NO", none⟩,
       ⟨"a2", "p2", none, none⟩] "a1" 5 (some 42)).Perm
      [⟨"a0", "p0", some "YES", none⟩, ⟨"a2", "p2", none, none⟩] := by
  have h := (sample_peers_correct (fun _ l n => l.take n)
      (fun _ l n hn => by simpa using Nat.min_eq_left hn)
      (fun _ l n _ => (List.take_sublist n l).subperm)
      [⟨"a0", "p0", some "YES", none⟩, ⟨"a1", "p1", some "NO", none⟩,
       ⟨"a2", "p2", none, none⟩] "a1" 5 (some 42)
      (by decide) (by decide)).2.2.2.2 (by decide)
  exact h.trans (by decide)

/-- C10: lines that are not valid JSON (and blank lines) are skipped by the
replay: `find_last_complete_round` computes exactly the same result, both
the last complete round and the per-agent reconstructed state, as it does
on the subsequence of successfully parsed event lines alone. -/
theorem find_last_complete_round_skips_invalid (log : List LogLine) :
    find_last_complete_round log =
      find_last_complete_round (log.filter isParsedLine) := by
  unfold find_last_complete_round
  rw [stepLine_filter]

lemma genAux_all_error (transport : Nat → Except String String)
    (err : Nat → String) (maxRetries : Nat) (retryDelay : ℚ)
    (herr : ∀ i < maxRetries, transport i = .error (err i)) :
    ∀ (remaining attempt : Nat), remaining + attempt = maxRetries →
      0 < remaining → ∀ lastErr,
      genAux transport maxRetries retryDelay remaining attempt lastErr =
        ({ response := none, parsed := none, success := false,
           error := some (err (maxRetries - 1)), attempt := maxRetries },
         (List.range (remaining - 1)).map
           fun i : Nat => retryDelay * ((attempt : ℚ) + (i : ℚ) + 1)) := by
  intro remaining
  induction remaining with
  | zero => intro attempt h1 h2; omega
  | succ rem ih =>
      intro attempt h1 _ lastErr
      have hatt : attempt < maxRetries := by omega
      rw [genAux]
      simp only [herr attempt hatt]
      cases rem with
      | zero =>
          have hnlt : ¬ attempt < maxRetries - 1 := by omega
          have ha : attempt = maxRetries - 1 := by omega
          rw [if_neg hnlt, genAux, ha]
          simp
      | succ rem2 =>
          have hlt : attempt < maxRetries - 1 := by omega
          rw [if_pos hlt, ih (attempt + 1) (by omega) (by omega) (some (err attempt))]
          simp only [Nat.add_sub_cancel]
          congr 1
          rw [List.range_succ_eq_map, List.map_cons, List.map_map]
          congr 1
          · push_cast; ring
          · apply List.map_congr_left
            intro i _
            simp only [Function.comp_apply]
            push_cast; ring

/-- C7: when every transport attempt fails, `generate` consumes exactly the
configured number of attempts, sleeps `retry_delay * (attempt + 1)` between
consecutive attempts (a delay linear in the attempt number), and returns
the terminal failure result: no response, no parsed object, success false,
the last attempt's error description, and the attempt count. -/
theorem generate_retries_exhausted
    (transport : Nat → Except String String) (err : Nat → String)
    (maxRetries : Nat) (retryDelay : ℚ)
    (herr : ∀ i < maxRetries, transport i = .error (err i))
    (hm : 0 < maxRetries) :
    generate transport maxRetries retryDelay =
      ({ response := none, parsed := none, success := false,
         error := some (err (maxRetries - 1)), attempt := maxRetries },
       (List.range (maxRetries - 1)).map
         fun i : Nat => retryDelay * ((i : ℚ) + 1)) := by
  rw [generate, genAux_all_error transport err maxRetries retryDelay herr
    maxRetries 0 (by omega) hm none]
  congr 1
  apply List.map_congr_left
  intro i _
  push_cast; ring

/-- Witness for C7: three attempts all failing with the same error, delay
2: result is the terminal failure with sleeps 2·1 and 2·2. -/
theorem generate_retries_exhausted_witness :
    generate (fun _ => .error ("boom")) 3 2 =
      ({ response := none, parsed := none, success := false,
         error := some ("boom"), attempt := 3 },
       (List.range 2).map fun i : Nat => (2 : ℚ) * ((i : ℚ) + 1)) :=
  generate_retries_exhausted (fun _ => .error ("boom")) (fun _ => "boom") 3 2
    (fun _ _ => rfl) (by omega)

/-- C6 (amended): the extraction fallback order of
`_parse_json_response` — direct parse of the stripped text first, then the
json-labelled fenced block, then any fenced block, then the span from the
first opening brace to the last closing brace; the first success wins, and
a backend text in which every extraction fails is reported upward by
`generate` as unparsed (`parsed = none`, `success = false`) while still
carrying the raw text and no transport error. -/
theorem parse_json_response_fallback (text : String) (h : text ≠ "") :
    (∀ j, json_loads (stripStr text) = some j → parse_json_response text = some j)
    ∧ (json_loads (stripStr text) = none →
        ∀ j, attemptJson (extractFencedJson text) = some j →
          parse_json_response text = some j)
    ∧ (json_loads (stripStr text) = none →
        attemptJson (extractFencedJson text) = none →
        ∀ j, attemptJson (extractFencedAny text) = some j →
          parse_json_response text = some j)
    ∧ (json_loads (stripStr text) = none →
        attemptJson (extractFencedJson text) = none →
        attemptJson (extractFencedAny text) = none →
        parse_json_response text = attemptJson (extractBrace text))
    ∧ (∀ (transport : Nat → Except String String) (maxRetries : Nat)
        (retryDelay : ℚ) (raw : String),
        0 < maxRetries → transport 0 = .ok raw →
        parse_json_response raw = none →
        (generate transport maxRetries retryDelay).1 =
          { response := some raw, parsed := none, success := false,
            error := none, attempt := 1 }) := by
  refine ⟨?_, ?_, ?_, ?_, ?_⟩
  · intro j h1
    rw [parse_json_response, if_neg h, h1]
  · intro h1 j h2
    rw [parse_json_response, if_neg h, h1, h2]
  · intro h1 h2 j h3
    rw [parse_json_response, if_neg h, h1, h2, h3]
  · intro h1 h2 h3
    rw [parse_json_response, if_neg h, h1, h2, h3]
  · intro transport maxRetries retryDelay raw hm htr hp
    cases maxRetries with
    | zero => omega
    | succ m =>
        rw [generate, genAux]
        simp only [htr, hp]
        rfl

/-- Counterexample to C6 as stated: on the response text
`{"a": 1} {"b": 2}` the claimed extraction step (d) — parse the first
balanced brace-delimited object — would succeed with `{"a": 1}`, but the
implemented pattern `\x7b[\s\S]*\x7d` is greedy, grabs the whole
two-object span, fails to parse it, and the function reports the text as
unparsed. -/
theorem parse_json_response_counterexample :
    parse_json_response ("\x7b\"a\": 1\x7d \x7b\"b\": 2\x7d") = none
    ∧ attemptJson (firstBalancedObject ("\x7b\"a\": 1\x7d \x7b\"b\": 2\x7d")) =
        some (.obj [("a", .num 1)]) :=
  ⟨rfl, rfl⟩

/-- Witness for C6: a text with no parseable JSON anywhere falls through
all four extraction stages. -/
theorem parse_json_response_fallback_witness :
    parse_json_response ("no json here") = attemptJson (extractBrace ("no json here")) :=
  (parse_json_response_fallback ("no json here") (by decide)).2.2.2.1 rfl rfl rfl

lemma sum_filter_pos_nat (l : List Nat) :
    (l.filter fun c => decide (0 < c)).sum = l.sum := by
  induction l with
  | nil => rfl
  | cons c rest ih =>
      by_cases h : 0 < c <;> simp [List.filter_cons, h, ih] <;> omega

lemma entropy_eq (counts : List Nat) (hT : counts.sum ≠ 0) :
    calculate_entropy counts =
      (∑ i ∈ posIdx counts, Real.negMulLog (stanceP counts i)) / Real.log 2 := by
  rw [calculate_entropy, if_neg hT]
  rw [← List.ofFn_get_eq_map counts (entropyTerm (counts.sum : ℝ)), List.sum_ofFn]
  have h1 : ∑ i : Fin counts.length, entropyTerm (counts.sum : ℝ) (counts.get i) =
      ∑ i ∈ posIdx counts, (stanceP counts i) * Real.logb 2 (stanceP counts i) := by
    rw [posIdx, Finset.sum_filter]
    apply Finset.sum_congr rfl
    intro i _
    by_cases h : 0 < counts.get i <;> simp [entropyTerm, stanceP, h]
  rw [h1, ← Finset.sum_neg_distrib]
  rw [Finset.sum_div]
  apply Finset.sum_congr rfl
  intro i _
  simp only [Real.negMulLog_eq_neg, Real.logb]
  field_simp

lemma sum_negMulLog_le_log_card {ι : Type} (S : Finset ι) (w : ι → ℝ)
    (hw : ∀ i ∈ S, 0 < w i) (hsum : ∑ i ∈ S, w i = 1) :
    ∑ i ∈ S, Real.negMulLog (w i) ≤ Real.log (S.card : ℝ) := by
  have hcon : ConcaveOn ℝ (Set.Ioi 0) Real.log := strictConcaveOn_log_Ioi.concaveOn
  have hmem : ∀ i ∈ S, (w i)⁻¹ ∈ Set.Ioi (0 : ℝ) :=
    fun i hi => Set.mem_Ioi.2 (inv_pos.2 (hw i hi))
  have hj := hcon.le_map_sum (fun i hi => (hw i hi).le) hsum hmem
  have h1 : ∑ i ∈ S, w i • (w i)⁻¹ = (S.card : ℝ) := by
    rw [Finset.sum_congr rfl (fun i hi => ?_), Finset.sum_const, nsmul_eq_mul, mul_one]
    rw [smul_eq_mul, mul_inv_cancel₀ (ne_of_gt (hw i hi))]
  have h2 : ∀ i ∈ S, w i • Real.log (w i)⁻¹ = Real.negMulLog (w i) := by
    intro i hi
    rw [smul_eq_mul, Real.log_inv, Real.negMulLog_eq_neg]
    ring
  rw [Finset.sum_congr rfl h2, h1] at hj
  exact hj

lemma stanceP_pos (counts : List Nat) (hT : counts.sum ≠ 0) :
    ∀ i ∈ posIdx counts, 0 < stanceP counts i := by
  intro i hi
  have hc : 0 < counts.get i := (Finset.mem_filter.1 hi).2
  have hTpos : 0 < (counts.sum : ℝ) := by
    have : 0 < counts.sum := Nat.pos_of_ne_zero hT
    exact_mod_cast this
  exact div_pos (by exact_mod_cast hc) hTpos

lemma stanceP_le_one (counts : List Nat) (hT : counts.sum ≠ 0) (i : Fin counts.length) :
    stanceP counts i ≤ 1 := by
  have hTpos : 0 < (counts.sum : ℝ) := by
    have : 0 < counts.sum := Nat.pos_of_ne_zero hT
    exact_mod_cast this
  rw [stanceP, div_le_one hTpos]
  exact_mod_cast List.le_sum_of_mem (counts.get_mem i i.isLt)

lemma sum_stanceP (counts : List Nat) (hT : counts.sum ≠ 0) :
    ∑ i ∈ posIdx counts, stanceP counts i = 1 := by
  have hTpos : (0 : ℝ) < (counts.sum : ℝ) := by
    have : 0 < counts.sum := Nat.pos_of_ne_zero hT
    exact_mod_cast this
  have hall : ∑ i : Fin counts.length, ((counts.get i : ℝ)) = (counts.sum : ℝ) := by
    rw [← List.sum_ofFn, List.ofFn_get_eq_map counts (fun c => (c : ℝ))]
    exact (Nat.cast_list_sum counts).symm
  have hsplit := Finset.sum_filter_add_sum_filter_not Finset.univ
    (fun i => 0 < counts.get i) (fun i => ((counts.get i : ℝ)))
  have hzero : ∑ i ∈ Finset.univ.filter (fun i : Fin counts.length => ¬ 0 < counts.get i),
      ((counts.get i : ℝ)) = 0 := by
    apply Finset.sum_eq_zero
    intro i hi
    have h0 : counts.get i = 0 := by
      have := (Finset.mem_filter.1 hi).2
      omega
    exact_mod_cast h0
  have hposs : ∑ i ∈ posIdx counts, ((counts.get i : ℝ)) = (counts.sum : ℝ) := by
    rw [posIdx]
    linarith [hsplit, hzero, hall]
  have hstep : ∑ i ∈ posIdx counts, stanceP counts i =
      (∑ i ∈ posIdx counts, ((counts.get i : ℝ))) / (counts.sum : ℝ) := by
    rw [Finset.sum_div]
    rfl
  rw [hstep, hposs, div_self (ne_of_gt hTpos)]

/-- C4 (amended): for every stance-count distribution, `calculate_entropy`
is nonnegative and at most log2 of the number of distinct stances of the
distribution, and it equals 0 if and only if at most one stance has a
nonzero count (the total-zero distribution also has entropy 0 by
definition). -/
theorem calculate_entropy_correct (counts : List Nat) :
    0 ≤ calculate_entropy counts
    ∧ calculate_entropy counts ≤ Real.logb 2 (counts.length : ℝ)
    ∧ (calculate_entropy counts = 0 ↔
        (counts.filter fun c => decide (0 < c)).length ≤ 1) := by
  by_cases hT : counts.sum = 0
  · have he : calculate_entropy counts = 0 := by rw [calculate_entropy, if_pos hT]
    have hallz : ∀ c ∈ counts, c = 0 := by
      intro c hc
      have := List.le_sum_of_mem hc
      omega
    have hfil : counts.filter (fun c => decide (0 < c)) = [] := by
      rw [List.filter_eq_nil]
      intro c hc
      simp [hallz c hc]
    refine ⟨by rw [he], ?_, by rw [he]; simp [hfil]⟩
    rw [he]
    rcases Nat.eq_zero_or_pos counts.length with h0 | h0
    · simp [h0, Real.logb_zero]
    · exact Real.logb_nonneg (by norm_num) (by exact_mod_cast h0)
  · have hEq := entropy_eq counts hT
    have hTpos : (0 : ℝ) < (counts.sum : ℝ) := by
      have : 0 < counts.sum := Nat.pos_of_ne_zero hT
      exact_mod_cast this
    have hwpos := stanceP_pos counts hT
    have hsum1 := sum_stanceP counts hT
    have hlog2 : 0 < Real.log 2 := Real.log_pos (by norm_num)
    have hterm_nonneg : ∀ i ∈ posIdx counts, 0 ≤ Real.negMulLog (stanceP counts i) :=
      fun i hi => Real.negMulLog_nonneg (hwpos i hi).le (stanceP_le_one counts hT i)
    have hsum_nonneg : 0 ≤ ∑ i ∈ posIdx counts, Real.negMulLog (stanceP counts i) :=
      Finset.sum_nonneg hterm_nonneg
    refine ⟨by rw [hEq]; exact div_nonneg hsum_nonneg hlog2.le, ?_, ?_⟩
    · have hjensen := sum_negMulLog_le_log_card (posIdx counts) (stanceP counts)
        hwpos hsum1
      have hcard_le : (posIdx counts).card ≤ counts.length := by
        calc (posIdx counts).card ≤ Finset.univ.card := Finset.card_filter_le _ _
          _ = counts.length := by simp
      have hcard_pos : 0 < (posIdx counts).card := by
        rcases Finset.eq_empty_or_nonempty (posIdx counts) with hemp | hne
        · exfalso
          apply hT
          apply List.sum_eq_zero
          intro x hx
          rcases List.mem_iff_get.1 hx with ⟨i, rfl⟩
          by_contra hxne
          have hiS : i ∈ posIdx counts := by
            rw [posIdx, Finset.mem_filter]
            exact ⟨Finset.mem_univ i, by omega⟩
          rw [hemp] at hiS
          cases hiS
        · exact Finset.card_pos.2 hne
      rw [hEq]
      calc (∑ i ∈ posIdx counts, Real.negMulLog (stanceP counts i)) / Real.log 2
          ≤ Real.log ((posIdx counts).card : ℝ) / Real.log 2 :=
            (div_le_div_iff_of_pos_right hlog2).mpr hjensen
        _ = Real.logb 2 ((posIdx counts).card : ℝ) := Real.log_div_log
        _ ≤ Real.logb 2 (counts.length : ℝ) :=
            Real.logb_le_logb_of_le (by norm_num) (by exact_mod_cast hcard_pos)
              (by exact_mod_cast hcard_le)
    · rw [hEq]
      constructor
      · intro h0
        by_contra hgt
        have hge2 : 2 ≤ (counts.filter fun c => decide (0 < c)).length := by omega
        obtain ⟨x, y, rest, hF⟩ : ∃ x y rest,
            counts.filter (fun c => decide (0 < c)) = x :: y :: rest := by
          rcases hFc : counts.filter (fun c => decide (0 < c)) with - | ⟨x, - | ⟨y, rest⟩⟩
          · rw [hFc] at hge2; simp at hge2
          · rw [hFc] at hge2; simp at hge2
          · exact ⟨x, y, rest, rfl⟩
        have hx : x ∈ counts ∧ 0 < x := by
          have : x ∈ counts.filter (fun c => decide (0 < c)) := by
            rw [hF]; exact List.mem_cons_self x _
          have hm := List.mem_filter.1 this
          exact ⟨hm.1, by simpa using hm.2⟩
        have hy : 0 < y := by
          have : y ∈ counts.filter (fun c => decide (0 < c)) := by
            rw [hF]; exact List.mem_cons.2 (Or.inr (List.mem_cons_self y _))
          have hm := List.mem_filter.1 this
          simpa using hm.2
        have hxT : x < counts.sum := by
          have hs := sum_filter_pos_nat counts
          rw [hF] at hs
          simp only [List.sum_cons] at hs
          omega
        rcases List.mem_iff_get.1 hx.1 with ⟨i, hget⟩
        have hiS : i ∈ posIdx counts := by
          rw [posIdx, Finset.mem_filter]
          exact ⟨Finset.mem_univ i, by omega⟩
        have hplt : stanceP counts i < 1 := by
          rw [stanceP, div_lt_one hTpos, hget]
          exact_mod_cast hxT
        have hppos : 0 < stanceP counts i := hwpos i hiS
        have hpos_term : 0 < Real.negMulLog (stanceP counts i) := by
          simp only [Real.negMulLog_eq_neg]
          have : stanceP counts i * Real.log (stanceP counts i) < 0 :=
            mul_neg_of_pos_of_neg hppos (Real.log_neg hppos hplt)
          linarith
        have hsum_pos : 0 < ∑ j ∈ posIdx counts, Real.negMulLog (stanceP counts j) :=
          Finset.sum_pos' hterm_nonneg ⟨i, hiS, hpos_term⟩
        have : 0 < (∑ j ∈ posIdx counts, Real.negMulLog (stanceP counts j)) / Real.log 2 :=
          div_pos hsum_pos hlog2
        rw [h0] at this
        exact lt_irrefl 0 this
      · intro hle
        have hFne : counts.filter (fun c => decide (0 < c)) ≠ [] := by
          intro hnil
          apply hT
          rw [← sum_filter_pos_nat counts, hnil]
          rfl
        have hlen1 : (counts.filter fun c => decide (0 < c)).length = 1 := by
          have := List.length_pos.2 hFne
          omega
        obtain ⟨y, hF⟩ := List.length_eq_one.1 hlen1
        have hyT : counts.sum = y := by
          rw [← sum_filter_pos_nat counts, hF]
          simp
        have hall1 : ∀ i ∈ posIdx counts, Real.negMulLog (stanceP counts i) = 0 := by
          intro i hi
          have hci : 0 < counts.get i := by
            have := (Finset.mem_filter.1 hi).2
            omega
          have hmemF : counts.get i ∈ counts.filter (fun c => decide (0 < c)) :=
            List.mem_filter.2 ⟨counts.get_mem i i.isLt, by simpa using hci⟩
          rw [hF] at hmemF
          have hgy : counts.get i = y := by simpa using hmemF
          have : stanceP counts i = 1 := by
            rw [stanceP, hgy, hyT, div_self (ne_of_gt ?_)]
            exact_mod_cast Nat.pos_of_ne_zero (by omega)
          rw [this, Real.negMulLog_one]
        rw [Finset.sum_eq_zero hall1, zero_div]

/-- Counterexample to C4 as stated: the empty distribution (no agent holds
a stance yet, so `get_stance_distribution` returns the empty dict) has
entropy 0 while the number of stances with a nonzero count is 0, not
exactly one — "equals 0 iff exactly one stance has a nonzero count" fails
at zero total count. -/
theorem calculate_entropy_counterexample :
    calculate_entropy [] = 0 ∧
      ¬ ((List.filter (fun c => decide (0 < c)) ([] : List Nat)).length = 1) :=
  ⟨by rw [calculate_entropy]; simp, by decide⟩

end EoE
